import Mathlib

/-!
Verification of the `bloock-blake-rs` BLAKE-512 hasher (`src/lib.rs`).

Machine integers are modelled as `Nat` with explicit reduction modulo `2 ^ 64`
(`M64`); byte sequences are `List Nat`.  The compression function lives in
`src/block.rs`, which is referenced by `mod block;` but is not part of the
sources available here; it is modelled from the specification (standard
BLAKE-512 round function, §4.2 of the spec) and validated against the
known-answer vectors recorded in the repository's tests.
-/

set_option maxHeartbeats 2000000
set_option maxRecDepth 16384

/-- Modulus of 64-bit machine arithmetic. -/
def M64 : Nat := 2 ^ 64

/-- The block size of the hash algorithm in bytes (`BLOCK_SIZE` in `lib.rs`). -/
def BLOCK_SIZE : Nat := 128

/-- Wrapping 64-bit subtraction of a constant `b ≤ 2^64` (Rust `wrapping_sub`,
and release-mode `-=`). -/
def sub64 (a b : Nat) : Nat := (a + (M64 - b)) % M64

/-- Right rotation of a 64-bit word. -/
def rotr64 (a n : Nat) : Nat := ((a >>> n) ||| (a <<< (64 - n))) % M64

/-- Big-endian decoding of 8 bytes into a 64-bit word, as in `set_salt`
(`lib.rs` lines 181-188) and in the block decoder. -/
def be64 (bs : List Nat) : Nat :=
  (bs.getD 0 0 <<< 56) ||| (bs.getD 1 0 <<< 48) ||| (bs.getD 2 0 <<< 40) |||
  (bs.getD 3 0 <<< 32) ||| (bs.getD 4 0 <<< 24) ||| (bs.getD 5 0 <<< 16) |||
  (bs.getD 6 0 <<< 8) ||| bs.getD 7 0

/-- Big-endian serialization of a 64-bit word into 8 bytes, as in the output
loop of `sum` (`lib.rs` lines 157-167); `as u8` is `% 256`. -/
def be64bytes (w : Nat) : List Nat :=
  [(w >>> 56) % 256, (w >>> 48) % 256, (w >>> 40) % 256, (w >>> 32) % 256,
   (w >>> 24) % 256, (w >>> 16) % 256, (w >>> 8) % 256, w % 256]

/-- Concatenated big-endian serialization of a list of 64-bit words. -/
def bytesOfWords : List Nat → List Nat
  | [] => []
  | w :: ws => be64bytes w ++ bytesOfWords ws

/-- `IV512` from `lib.rs`. -/
def IV512 : List Nat :=
  [0x6A09E667F3BCC908, 0xBB67AE8584CAA73B, 0x3C6EF372FE94F82B, 0xA54FF53A5F1D36F1,
   0x510E527FADE682D1, 0x9B05688C2B3E6C1F, 0x1F83D9ABFB41BD6B, 0x5BE0CD19137E2179]

/-- `IV384` from `lib.rs`. -/
def IV384 : List Nat :=
  [0xCBBB9D5DC1059ED8, 0x629A292A367CD507, 0x9159015A3070DD17, 0x152FECD8F70E5939,
   0x67332667FFC00B31, 0x8EB44A8768581511, 0xDB0C2E0D64F98FA7, 0x47B5481DBEFA4FA4]

/-- Modelled from the spec: the 16 fixed round constants of the BLAKE-512
compression function ("fixed constant table", spec §4.2 and §9); the table in
`src/block.rs` is not part of the available sources. -/
def cstT : List Nat :=
  [0x243F6A8885A308D3, 0x13198A2E03707344, 0xA4093822299F31D0, 0x082EFA98EC4E6C89,
   0x452821E638D01377, 0xBE5466CF34E90C6C, 0xC0AC29B7C97C50DD, 0x3F84D5B5B5470917,
   0x9216D5D98979FB1B, 0xD1310BA698DFB5AC, 0x2FFD72DBD01ADFB7, 0xB8E1AFED6A267E96,
   0xBA7C9045F12C7F99, 0x24A19947B3916CF7, 0x0801F2E2858EFC16, 0x636920D871574E69]

/-- Modelled from the spec: the round-dependent message-word permutation
schedule of BLAKE-512 ("round-dependent message-word permutation", spec §4.2);
rounds beyond the tenth reuse the rows cyclically. -/
def sigmaT : List (List Nat) :=
  [[0, 1, 2, 3, 4, 5, 6, 7, 8, 9, 10, 11, 12, 13, 14, 15],
   [14, 10, 4, 8, 9, 15, 13, 6, 1, 12, 0, 2, 11, 7, 5, 3],
   [11, 8, 12, 0, 5, 2, 15, 13, 10, 14, 3, 6, 7, 1, 9, 4],
   [7, 9, 3, 1, 13, 12, 11, 14, 2, 6, 5, 10, 4, 0, 15, 8],
   [9, 0, 5, 7, 2, 4, 10, 15, 14, 1, 11, 12, 6, 8, 3, 13],
   [2, 12, 6, 10, 0, 11, 8, 3, 4, 13, 7, 5, 15, 14, 1, 9],
   [12, 5, 1, 15, 14, 13, 4, 10, 0, 7, 6, 3, 9, 2, 8, 11],
   [13, 11, 7, 14, 12, 1, 3, 9, 5, 0, 15, 4, 8, 6, 2, 10],
   [6, 15, 14, 9, 11, 3, 0, 8, 12, 2, 13, 7, 1, 4, 10, 5],
   [10, 2, 8, 4, 7, 6, 1, 5, 15, 11, 9, 14, 3, 12, 13, 0]]

/-- Modelled from the spec: the keyed ARX quarter-round primitive `G` of
BLAKE-512 (spec §4.2), with the standard rotation amounts 32, 25, 16, 11. -/
def gMix (a b c d m0 m1 c0 c1 : Nat) : Nat × Nat × Nat × Nat :=
  let a := (a + b + (m0 ^^^ c1)) % M64
  let d := rotr64 (d ^^^ a) 32
  let c := (c + d) % M64
  let b := rotr64 (b ^^^ c) 25
  let a := (a + b + (m1 ^^^ c0)) % M64
  let d := rotr64 (d ^^^ a) 16
  let c := (c + d) % M64
  let b := rotr64 (b ^^^ c) 11
  (a, b, c, d)

/-- Modelled from the spec: one round of the BLAKE-512 compression function,
four column applications of `G` followed by four diagonal ones (spec §4.2). -/
def roundFn (m : List Nat) (r : Nat) (v : List Nat) : List Nat :=
  let sg := sigmaT.getD (r % 10) []
  let mi := fun i => m.getD (sg.getD i 0) 0
  let ci := fun i => cstT.getD (sg.getD i 0) 0
  match v with
  | [v0, v1, v2, v3, v4, v5, v6, v7, v8, v9, v10, v11, v12, v13, v14, v15] =>
    let (v0, v4, v8, v12) := gMix v0 v4 v8 v12 (mi 0) (mi 1) (ci 0) (ci 1)
    let (v1, v5, v9, v13) := gMix v1 v5 v9 v13 (mi 2) (mi 3) (ci 2) (ci 3)
    let (v2, v6, v10, v14) := gMix v2 v6 v10 v14 (mi 4) (mi 5) (ci 4) (ci 5)
    let (v3, v7, v11, v15) := gMix v3 v7 v11 v15 (mi 6) (mi 7) (ci 6) (ci 7)
    let (v0, v5, v10, v15) := gMix v0 v5 v10 v15 (mi 8) (mi 9) (ci 8) (ci 9)
    let (v1, v6, v11, v12) := gMix v1 v6 v11 v12 (mi 10) (mi 11) (ci 10) (ci 11)
    let (v2, v7, v8, v13) := gMix v2 v7 v8 v13 (mi 12) (mi 13) (ci 12) (ci 13)
    let (v3, v4, v9, v14) := gMix v3 v4 v9 v14 (mi 14) (mi 15) (ci 14) (ci 15)
    [v0, v1, v2, v3, v4, v5, v6, v7, v8, v9, v10, v11, v12, v13, v14, v15]
  | _ => v

/-- Modelled from the spec: the BLAKE-512 compression of a single 128-byte
block (spec §4.2): decode 16 big-endian message words, initialize the 16-word
working state from the chain value, the constants and the salt, inject the
(already advanced) bit counter `t` unless `nullt` is set, run 16 rounds, and
fold the working state and salt back into the chain value. -/
def compress1 (h sl : List Nat) (t : Nat) (nullt : Bool) (blk : List Nat) : List Nat :=
  let m := (List.range 16).map fun i => be64 (blk.drop (8 * i))
  let hi := fun i => h.getD i 0
  let si := fun i => sl.getD i 0
  let ci := fun i => cstT.getD i 0
  let v12 := if nullt then ci 4 else ci 4 ^^^ t
  let v13 := if nullt then ci 5 else ci 5 ^^^ t
  let v := [hi 0, hi 1, hi 2, hi 3, hi 4, hi 5, hi 6, hi 7,
            si 0 ^^^ ci 0, si 1 ^^^ ci 1, si 2 ^^^ ci 2, si 3 ^^^ ci 3,
            v12, v13, ci 6, ci 7]
  let v := (List.range 16).foldl (fun w r => roundFn m r w) v
  let vi := fun i => v.getD i 0
  [hi 0 ^^^ si 0 ^^^ vi 0 ^^^ vi 8,
   hi 1 ^^^ si 1 ^^^ vi 1 ^^^ vi 9,
   hi 2 ^^^ si 2 ^^^ vi 2 ^^^ vi 10,
   hi 3 ^^^ si 3 ^^^ vi 3 ^^^ vi 11,
   hi 4 ^^^ si 0 ^^^ vi 4 ^^^ vi 12,
   hi 5 ^^^ si 1 ^^^ vi 5 ^^^ vi 13,
   hi 6 ^^^ si 2 ^^^ vi 6 ^^^ vi 14,
   hi 7 ^^^ si 3 ^^^ vi 7 ^^^ vi 15]

/-- Modelled from the spec: iterated block compression, one 128-byte chunk at
a time; the bit counter advances by 1024 before each compression and the
advanced value is the one injected (spec §4.1 step 2, §4.2). -/
def blockChunks (sl : List Nat) (nullt : Bool) : Nat → List Nat → Nat → List Nat → List Nat × Nat
  | 0, h, t, _ => (h, t)
  | k + 1, h, t, q =>
    let t' := (t + 1024) % M64
    blockChunks sl nullt k (compress1 h sl t' nullt (q.take BLOCK_SIZE)) t' (q.drop BLOCK_SIZE)

/-- The hasher state `Blake512` from `lib.rs`: `x` is the full 128-byte
internal buffer, `nx` the number of valid bytes in it. -/
structure Blake512 where
  hash_size : Nat
  h : List Nat
  s : List Nat
  t : Nat
  nullt : Bool
  x : List Nat
  nx : Nat
deriving DecidableEq

/-- `Default for Blake512` from `lib.rs`: 512-bit mode, `IV512`, zero salt,
empty buffer. -/
def blakeDefault : Blake512 :=
  { hash_size := 512, h := IV512, s := [0, 0, 0, 0], t := 0, nullt := false,
    x := List.replicate BLOCK_SIZE 0, nx := 0 }

/-- Modelled from the spec: `Construct(hash_size ∈ {384, 512})` (spec §4.1);
the sources under `src/` only expose the 512-bit `Default` constructor. -/
def mkBlake (hs : Nat) : Blake512 :=
  { hash_size := hs, h := if hs = 384 then IV384 else IV512, s := [0, 0, 0, 0],
    t := 0, nullt := false, x := List.replicate BLOCK_SIZE 0, nx := 0 }

/-- `Blake512::reset` from `lib.rs` lines 57-66. -/
def Blake512.reset (d : Blake512) : Blake512 :=
  { d with h := if d.hash_size = 384 then IV384 else IV512, t := 0, nx := 0, nullt := false }

/-- Modelled from the spec: `Blake512::block` (in the absent `src/block.rs`)
compresses every full 128-byte chunk of `p` into the chain value, advancing
the counter by 1024 bits per chunk (spec §4.1-§4.2). -/
def Blake512.block (d : Blake512) (p : List Nat) : Blake512 :=
  let r := blockChunks d.s d.nullt (p.length / BLOCK_SIZE) d.h d.t p
  { d with h := r.1, t := r.2 }

/-- The helper `copy` from `helpers.rs`, applied to the slice `x[off..]`:
copy `n = min (length p) (length x - off)` bytes of `p` into `x` at `off`. -/
def copyInto (x : List Nat) (off : Nat) (p : List Nat) (n : Nat) : List Nat :=
  x.take off ++ p.take n ++ x.drop (off + n)

/-- First step of `Blake512::write` (`lib.rs` lines 80-90): top up a non-empty
buffer and compress it if it fills completely. -/
def writeStep1 (d : Blake512) (p : List Nat) : Blake512 × List Nat :=
  if 0 < d.nx then
    let n := min p.length (BLOCK_SIZE - d.nx)
    let x' := copyInto d.x d.nx p n
    let d' := { d with x := x', nx := d.nx + n }
    let d' := if d'.nx = BLOCK_SIZE then { d'.block x' with nx := 0 } else d'
    (d', p.drop n)
  else (d, p)

/-- Second step of `Blake512::write` (`lib.rs` lines 92-96): compress the
maximal run of full blocks directly from the input; `p.len & !(BLOCK_SIZE-1)`
is the largest multiple of `BLOCK_SIZE` not exceeding `p.len`. -/
def writeStep2 (d : Blake512) (p : List Nat) : Blake512 × List Nat :=
  if BLOCK_SIZE ≤ p.length then
    let n := p.length / BLOCK_SIZE * BLOCK_SIZE
    (d.block (p.take n), p.drop n)
  else (d, p)

/-- Third step of `Blake512::write` (`lib.rs` lines 98-100): stash the tail in
the buffer. -/
def writeStep3 (d : Blake512) (p : List Nat) : Blake512 :=
  if p = [] then d
  else
    let n := min p.length BLOCK_SIZE
    { d with x := copyInto d.x 0 p n, nx := n }

/-- `Blake512::write` from `lib.rs` lines 76-103; the returned count is
`nn as u8`, i.e. the input length reduced modulo 256. -/
def Blake512.write (d : Blake512) (p : List Nat) : Blake512 × Nat :=
  let s1 := writeStep1 d p
  let s2 := writeStep2 s1.1 s1.2
  (writeStep3 s2.1 s2.2, p.length % 256)

/-- The 129-byte padding template `pad` of `sum` (`lib.rs` lines 127-128):
`0x80` followed by zeros. -/
def padList : List Nat := 0x80 :: List.replicate 128 0

/-- The 16-byte big-endian length field of `sum` (`lib.rs` lines 110-120):
the top 8 bytes are zero because the counter has only 64 bits. -/
def lenBytes (l : Nat) : List Nat := List.replicate 8 0 ++ be64bytes l

/-- The three-way padding branch of `Blake512::sum` (`lib.rs` lines 122-149),
acting on the internal clone `d`: the padding writes and the wrapping counter
back-adjustments; `d.nx` is the buffered byte count at finalization. -/
def Blake512.padStep (d : Blake512) : Blake512 :=
  if d.nx = 111 then
    (({ d with t := sub64 d.t 8 }).write [0x81]).1
  else
    let d1 :=
      if d.nx < 111 then
        let d0 := if d.nx = 0 then { d with nullt := true } else d
        (({ d0 with t := sub64 d0.t (888 - (d.nx <<< 3)) }).write
          (padList.take (111 - d.nx))).1
      else
        let d0 := (({ d with t := sub64 d.t (1024 - (d.nx <<< 3)) }).write
          (padList.take (BLOCK_SIZE - d.nx))).1
        let d0 := (({ d0 with t := sub64 d0.t 888 }).write ((padList.drop 1).take 111)).1
        { d0 with nullt := true }
    let d2 := (d1.write [0x01]).1
    { d2 with t := sub64 d2.t 8 }

/-- The finalization pipeline of `Blake512::sum` (`lib.rs` lines 106-152):
the 16-byte length field is computed from the state before padding, then the
padding branch runs, the counter is adjusted back by 128 bits and the length
field is written, triggering the last compression. -/
def Blake512.finalize (d : Blake512) : Blake512 :=
  let l := (d.t + (d.nx <<< 3)) % M64
  let d1 := d.padStep
  (({ d1 with t := sub64 d1.t 128 }).write (lenBytes l)).1

/-- The digest-serialization step of `Blake512::sum` (`lib.rs` lines 154-167):
the first `hash_size >> 6` chain words, each written big-endian. -/
def digestBytes (d : Blake512) : List Nat :=
  bytesOfWords (d.h.take (d.hash_size >>> 6))

/-- `Blake512::sum` from `lib.rs` lines 105-172.  The receiver is returned
unchanged (`sum` operates on `self.clone()` only); the byte output is the
prefix followed by the serialized digest of the finalized clone. -/
def Blake512.sum (self : Blake512) (inp : List Nat) : Blake512 × List Nat :=
  (self, inp ++ digestBytes self.finalize)

/-- `Blake512::set_salt` from `lib.rs` lines 174-191; the `panic!` on a salt
whose length is not 32 is modelled as `none`, so no state is returned (and the
caller's state is untouched) on failure. -/
def Blake512.set_salt (d : Blake512) (s : List Nat) : Option Blake512 :=
  if s.length ≠ 32 then none
  else some { d with s := [be64 s, be64 (s.drop 8), be64 (s.drop 16), be64 (s.drop 24)] }

/-- The observable part of a hasher state: everything except the stale bytes
of the internal buffer beyond `nx`.  `buf` is the valid buffer content
`x.take nx`. -/
structure Obs where
  hash_size : Nat
  h : List Nat
  s : List Nat
  t : Nat
  nullt : Bool
  buf : List Nat
deriving DecidableEq

/-- Projection of a hasher state to its observable part. -/
def Blake512.toObs (d : Blake512) : Obs :=
  { hash_size := d.hash_size, h := d.h, s := d.s, t := d.t, nullt := d.nullt,
    buf := d.x.take d.nx }

/-- Denotation of `Blake512.write` on observable states: compress every full
block of `buf ++ p` and keep the remainder buffered. -/
def Obs.write (o : Obs) (p : List Nat) : Obs :=
  let q := o.buf ++ p
  let k := q.length / BLOCK_SIZE
  let r := blockChunks o.s o.nullt k o.h o.t q
  { o with h := r.1, t := r.2, buf := q.drop (k * BLOCK_SIZE) }

/-- Structural well-formedness of a hasher state: the buffer array has its
fixed 128-byte capacity and fewer than 128 bytes of it are valid. -/
abbrev WF (d : Blake512) : Prop := d.nx < BLOCK_SIZE ∧ d.x.length = BLOCK_SIZE

/-- The hasher states reachable through the documented API, indexed by the
number of 128-byte blocks compressed so far: default construction, the
spec-level constructor, `reset`, `write` (which compresses one block per
128 bytes crossing the buffer boundary) and a successful `set_salt`.
`sum` never mutates the receiver, so it adds no states. -/
inductive Reachable : Blake512 → Nat → Prop
  | init : Reachable blakeDefault 0
  | construct (hs : Nat) (hhs : hs = 384 ∨ hs = 512) : Reachable (mkBlake hs) 0
  | reset (d : Blake512) (B : Nat) (hd : Reachable d B) : Reachable d.reset 0
  | write (d : Blake512) (B : Nat) (p : List Nat) (hd : Reachable d B) :
      Reachable (d.write p).1 (B + (d.nx + p.length) / BLOCK_SIZE)
  | salt (d : Blake512) (B : Nat) (s : List Nat) (d' : Blake512) (hd : Reachable d B)
      (hs : d.set_salt s = some d') : Reachable d' B

/-- Mirror of the finalization pipeline of `sum` that records, for each of the
counter back-adjustments `t -= c` in `lib.rs` lines 122-151 (the subtractions
of 8, `888 - nx*8`, `1024 - nx*8`, 888, 8 and 128 bits), whether the
subtraction is defined in 64-bit arithmetic without underflow (`c ≤ t` at the
moment it executes); the state evolves through the same writes as in
`Blake512.padStep` and `Blake512.finalize`. -/
def sumNoUnderflow (d : Blake512) : Bool :=
  if d.nx = 111 then
    let c1 := decide (8 ≤ d.t)
    let t1 : Nat := (({ d with t := sub64 d.t 8 }).write [0x81]).1.t
    c1 && decide (128 ≤ t1)
  else if d.nx < 111 then
    let d0 := if d.nx = 0 then { d with nullt := true } else d
    let c1 := decide (888 - (d.nx <<< 3) ≤ d0.t)
    let d1 := (({ d0 with t := sub64 d0.t (888 - (d.nx <<< 3)) }).write
      (padList.take (111 - d.nx))).1
    let t2 : Nat := (d1.write [0x01]).1.t
    let c2 := decide (8 ≤ t2)
    let t3 : Nat := sub64 t2 8
    c1 && c2 && decide (128 ≤ t3)
  else
    let c1 := decide (1024 - (d.nx <<< 3) ≤ d.t)
    let d1 := (({ d with t := sub64 d.t (1024 - (d.nx <<< 3)) }).write
      (padList.take (BLOCK_SIZE - d.nx))).1
    let t1 : Nat := d1.t
    let c2 := decide (888 ≤ t1)
    let d2 := (({ d1 with t := sub64 d1.t 888 }).write ((padList.drop 1).take 111)).1
    let t4 : Nat := (({ d2 with nullt := true }).write [0x01]).1.t
    let c3 := decide (8 ≤ t4)
    let t5 : Nat := sub64 t4 8
    c1 && c2 && c3 && decide (128 ≤ t5)

theorem toObs_buf_length (d : Blake512) (hI : WF d) : d.toObs.buf.length = d.nx := by
  obtain ⟨h1, h2⟩ := hI
  simp only [BLOCK_SIZE] at h1 h2
  simp only [Blake512.toObs, List.length_take]
  omega

theorem blockChunks_take (sl : List Nat) (nl : Bool) (k : Nat) :
    ∀ (h : List Nat) (t : Nat) (q : List Nat),
      blockChunks sl nl k h t (q.take (k * BLOCK_SIZE)) = blockChunks sl nl k h t q := by
  induction k with
  | zero => intro h t q; rfl
  | succ k ih =>
    intro h t q
    simp only [blockChunks]
    rw [List.take_take, List.drop_take]
    have h1 : min BLOCK_SIZE ((k + 1) * BLOCK_SIZE) = BLOCK_SIZE := by
      simp only [BLOCK_SIZE]; omega
    have h2 : (k + 1) * BLOCK_SIZE - BLOCK_SIZE = k * BLOCK_SIZE := by
      simp only [BLOCK_SIZE]; omega
    rw [h1, h2, ih]

theorem blockChunks_add (sl : List Nat) (nl : Bool) (k1 k2 : Nat) :
    ∀ (h : List Nat) (t : Nat) (q : List Nat),
      blockChunks sl nl (k1 + k2) h t q =
        blockChunks sl nl k2 (blockChunks sl nl k1 h t q).1 (blockChunks sl nl k1 h t q).2
          (q.drop (k1 * BLOCK_SIZE)) := by
  induction k1 with
  | zero => intro h t q; simp [blockChunks]
  | succ k1 ih =>
    intro h t q
    have hadd : k1 + 1 + k2 = (k1 + k2) + 1 := by omega
    rw [hadd]
    simp only [blockChunks]
    rw [ih]
    have : (q.drop BLOCK_SIZE).drop (k1 * BLOCK_SIZE) = q.drop ((k1 + 1) * BLOCK_SIZE) := by
      rw [List.drop_drop]
      congr 1
      ring
    rw [this]

theorem blockChunks_t (sl : List Nat) (nl : Bool) (k : Nat) :
    ∀ (h : List Nat) (t : Nat) (q : List Nat), t < M64 →
      (blockChunks sl nl k h t q).2 = (t + 1024 * k) % M64 := by
  induction k with
  | zero =>
    intro h t q ht
    simp only [blockChunks, Nat.mul_zero, Nat.add_zero]
    exact (Nat.mod_eq_of_lt ht).symm
  | succ k ih =>
    intro h t q ht
    simp only [blockChunks]
    rw [ih _ _ _ (Nat.mod_lt _ (by simp [M64]))]
    rw [Nat.mod_add_mod]
    congr 1
    ring

theorem step1_zero (d : Blake512) (p : List Nat) (h0 : d.nx = 0) :
    writeStep1 d p = (d, p) := by
  simp [writeStep1, h0]

theorem step1_small (d : Blake512) (p : List Nat) (h0 : 0 < d.nx) (hwf : WF d)
    (hl : d.nx + p.length < BLOCK_SIZE) :
    writeStep1 d p = ({ d with x := copyInto d.x d.nx p p.length, nx := d.nx + p.length }, []) := by
  obtain ⟨h1, h2⟩ := hwf
  have hmin : min p.length (BLOCK_SIZE - d.nx) = p.length := by
    simp only [BLOCK_SIZE] at *; omega
  have hne : ¬ (d.nx + p.length = BLOCK_SIZE) := by omega
  simp only [writeStep1, if_pos h0, hmin, if_neg hne, List.drop_length]

theorem step1_fill (d : Blake512) (p : List Nat) (h0 : 0 < d.nx) (hwf : WF d)
    (hl : BLOCK_SIZE ≤ d.nx + p.length) :
    writeStep1 d p =
      ({ d with
           h := compress1 d.h d.s ((d.t + 1024) % M64) d.nullt
                  (d.x.take d.nx ++ p.take (BLOCK_SIZE - d.nx)),
           t := (d.t + 1024) % M64,
           x := d.x.take d.nx ++ p.take (BLOCK_SIZE - d.nx),
           nx := 0 },
       p.drop (BLOCK_SIZE - d.nx)) := by
  obtain ⟨h1, h2⟩ := hwf
  have hmin : min p.length (BLOCK_SIZE - d.nx) = BLOCK_SIZE - d.nx := by
    simp only [BLOCK_SIZE] at *; omega
  have hx' : copyInto d.x d.nx p (BLOCK_SIZE - d.nx) = d.x.take d.nx ++ p.take (BLOCK_SIZE - d.nx) := by
    simp only [copyInto]
    have heq : d.nx + (BLOCK_SIZE - d.nx) = BLOCK_SIZE := by omega
    rw [heq, ← h2, List.drop_length, List.append_nil]
  have hlen : (d.x.take d.nx ++ p.take (BLOCK_SIZE - d.nx)).length = BLOCK_SIZE := by
    simp only [List.length_append, List.length_take]
    simp only [BLOCK_SIZE] at *; omega
  have heq : d.nx + (BLOCK_SIZE - d.nx) = BLOCK_SIZE := by omega
  simp only [writeStep1, if_pos h0, hmin, hx', heq, if_pos rfl, Blake512.block, hlen, if_true]
  have hk : BLOCK_SIZE / BLOCK_SIZE = 1 := by simp [BLOCK_SIZE]
  rw [hk]
  simp only [blockChunks]
  rw [List.take_of_length_le (by rw [hlen])]

theorem step2_eq (d : Blake512) (p : List Nat) :
    writeStep2 d p =
      ({ d with h := (blockChunks d.s d.nullt (p.length / BLOCK_SIZE) d.h d.t p).1,
                t := (blockChunks d.s d.nullt (p.length / BLOCK_SIZE) d.h d.t p).2 },
       p.drop (p.length / BLOCK_SIZE * BLOCK_SIZE)) := by
  by_cases hl : BLOCK_SIZE ≤ p.length
  · have hle : p.length / BLOCK_SIZE * BLOCK_SIZE ≤ p.length := Nat.div_mul_le_self _ _
    have hn : (p.take (p.length / BLOCK_SIZE * BLOCK_SIZE)).length
        = p.length / BLOCK_SIZE * BLOCK_SIZE := by
      rw [List.length_take]; omega
    have hpos : 0 < BLOCK_SIZE := by simp [BLOCK_SIZE]
    simp only [writeStep2, if_pos hl, Blake512.block, hn, Nat.mul_div_cancel _ hpos]
    rw [blockChunks_take]
  · have hk : p.length / BLOCK_SIZE = 0 := Nat.div_eq_of_lt (by omega)
    simp only [writeStep2, if_neg hl, hk, Nat.zero_mul, List.drop_zero, blockChunks]

theorem write_nil_aux (d : Blake512) :
    writeStep3 (writeStep2 d []).1 (writeStep2 d []).2 = d := by
  rw [step2_eq]
  simp [writeStep3, blockChunks]

theorem step3_obs (d : Blake512) (p : List Nat) (h0 : d.nx = 0) (hx : d.x.length = BLOCK_SIZE)
    (hp : p.length < BLOCK_SIZE) :
    (writeStep3 d p).toObs = { d.toObs with buf := p } ∧ WF (writeStep3 d p) := by
  by_cases hnil : p = []
  · subst hnil
    have hw : writeStep3 d [] = d := by simp [writeStep3]
    rw [hw]
    constructor
    · simp [Blake512.toObs, h0]
    · exact ⟨by simp [h0, BLOCK_SIZE], hx⟩
  · have hmin : min p.length BLOCK_SIZE = p.length := by omega
    have hcopy : copyInto d.x 0 p p.length = p ++ d.x.drop p.length := by
      simp [copyInto, List.take_length]
    simp only [writeStep3, if_neg hnil, hmin, hcopy]
    constructor
    · simp only [Blake512.toObs, h0, List.take_zero]
      rw [List.take_left p (d.x.drop p.length)]
    · refine ⟨hp, ?_⟩
      simp only [List.length_append, List.length_drop, hx]
      omega

theorem write_clean_obs (d : Blake512) (p : List Nat) (h0 : d.nx = 0)
    (hx : d.x.length = BLOCK_SIZE) :
    (writeStep3 (writeStep2 d p).1 (writeStep2 d p).2).toObs = d.toObs.write p ∧
    WF (writeStep3 (writeStep2 d p).1 (writeStep2 d p).2) := by
  rw [step2_eq]
  have hrem : (p.drop (p.length / BLOCK_SIZE * BLOCK_SIZE)).length < BLOCK_SIZE := by
    rw [List.length_drop]
    simp only [BLOCK_SIZE]
    omega
  obtain ⟨hobs, hwf⟩ := step3_obs
    { d with h := (blockChunks d.s d.nullt (p.length / BLOCK_SIZE) d.h d.t p).1,
             t := (blockChunks d.s d.nullt (p.length / BLOCK_SIZE) d.h d.t p).2 }
    (p.drop (p.length / BLOCK_SIZE * BLOCK_SIZE)) h0 hx hrem
  refine ⟨?_, hwf⟩
  rw [hobs]
  simp only [Obs.write, Blake512.toObs, h0, List.take_zero, List.nil_append]

theorem write_obs (d : Blake512) (p : List Nat) (hwf : WF d) :
    (d.write p).1.toObs = d.toObs.write p ∧ WF (d.write p).1 := by
  by_cases h0 : d.nx = 0
  · have := write_clean_obs d p h0 hwf.2
    simpa only [Blake512.write, step1_zero d p h0] using this
  · have hpos : 0 < d.nx := Nat.pos_of_ne_zero h0
    obtain ⟨h1, h2⟩ := hwf
    by_cases hl : d.nx + p.length < BLOCK_SIZE
    · have hs1 := step1_small d p hpos ⟨h1, h2⟩ hl
      simp only [Blake512.write, hs1, write_nil_aux]
      have hq : (d.x.take d.nx ++ p).length = d.nx + p.length := by
        simp only [List.length_append, List.length_take]
        omega
      constructor
      · simp only [Blake512.toObs, Obs.write, hq]
        have hk : (d.nx + p.length) / BLOCK_SIZE = 0 := Nat.div_eq_of_lt hl
        simp only [hk, blockChunks, Nat.zero_mul, List.drop_zero]
        have hbuf : (copyInto d.x d.nx p p.length).take (d.nx + p.length)
            = d.x.take d.nx ++ p := by
          simp only [copyInto, List.take_length]
          nth_rewrite 1 [← hq]
          exact List.take_left _ _
        rw [hbuf]
      · refine ⟨hl, ?_⟩
        simp only [copyInto, List.take_length, List.length_append, List.length_take,
          List.length_drop]
        simp only [BLOCK_SIZE] at *
        omega
    · have hge : BLOCK_SIZE ≤ d.nx + p.length := by omega
      have hs1 := step1_fill d p hpos ⟨h1, h2⟩ hge
      simp only [Blake512.write, hs1]
      have hx1 : (d.x.take d.nx ++ p.take (BLOCK_SIZE - d.nx)).length = BLOCK_SIZE := by
        simp only [List.length_append, List.length_take]
        simp only [BLOCK_SIZE] at *
        omega
      obtain ⟨hobs, hwf'⟩ := write_clean_obs
        { d with
            h := compress1 d.h d.s ((d.t + 1024) % M64) d.nullt
                   (d.x.take d.nx ++ p.take (BLOCK_SIZE - d.nx)),
            t := (d.t + 1024) % M64,
            x := d.x.take d.nx ++ p.take (BLOCK_SIZE - d.nx),
            nx := 0 }
        (p.drop (BLOCK_SIZE - d.nx)) rfl hx1
      refine ⟨?_, hwf'⟩
      rw [hobs]
      simp only [Obs.write, Blake512.toObs, List.take_zero, List.nil_append]
      have hbuflen : (d.x.take d.nx).length = d.nx := by
        rw [List.length_take]; omega
      have hq : (d.x.take d.nx ++ p).length = d.nx + p.length := by
        rw [List.length_append, hbuflen]
      have hp1 : (p.drop (BLOCK_SIZE - d.nx)).length = d.nx + p.length - BLOCK_SIZE := by
        rw [List.length_drop]; omega
      have hk : (d.x.take d.nx ++ p).length / BLOCK_SIZE
          = 1 + (p.drop (BLOCK_SIZE - d.nx)).length / BLOCK_SIZE := by
        rw [hq, hp1]
        simp only [BLOCK_SIZE] at *
        omega
      have htake : (d.x.take d.nx ++ p).take BLOCK_SIZE
          = d.x.take d.nx ++ p.take (BLOCK_SIZE - d.nx) := by
        rw [List.take_append_eq_append_take, hbuflen,
          List.take_of_length_le (by rw [hbuflen]; omega)]
      have hdrop : (d.x.take d.nx ++ p).drop BLOCK_SIZE = p.drop (BLOCK_SIZE - d.nx) := by
        rw [List.drop_append_eq_append_drop, hbuflen,
          List.drop_eq_nil_of_le (by rw [hbuflen]; omega), List.nil_append]
      rw [hk]
      have hone : blockChunks d.s d.nullt 1 d.h d.t (d.x.take d.nx ++ p)
          = (compress1 d.h d.s ((d.t + 1024) % M64) d.nullt
               (d.x.take d.nx ++ p.take (BLOCK_SIZE - d.nx)), (d.t + 1024) % M64) := by
        simp only [blockChunks]
        rw [htake]
      rw [blockChunks_add d.s d.nullt 1 ((p.drop (BLOCK_SIZE - d.nx)).length / BLOCK_SIZE)
        d.h d.t (d.x.take d.nx ++ p), hone]
      simp only [Nat.one_mul]
      rw [hdrop]
      have hdd : (d.x.take d.nx ++ p).drop
            ((1 + (p.drop (BLOCK_SIZE - d.nx)).length / BLOCK_SIZE) * BLOCK_SIZE)
          = (p.drop (BLOCK_SIZE - d.nx)).drop
              ((p.drop (BLOCK_SIZE - d.nx)).length / BLOCK_SIZE * BLOCK_SIZE) := by
        rw [← hdrop, List.drop_drop]
        congr 1
        ring
      rw [hdd]

theorem obs_write_append (o : Obs) (p q : List Nat) :
    (o.write p).write q = o.write (p ++ q) := by
  obtain ⟨hs, h, sl, t, nl, b⟩ := o
  simp only [Obs.write, ← List.append_assoc]
  have hk1 : (b ++ p).length / BLOCK_SIZE * BLOCK_SIZE ≤ (b ++ p).length :=
    Nat.div_mul_le_self _ _
  have hK : ((b ++ p) ++ q).length / BLOCK_SIZE
      = (b ++ p).length / BLOCK_SIZE
        + ((b ++ p).drop ((b ++ p).length / BLOCK_SIZE * BLOCK_SIZE) ++ q).length / BLOCK_SIZE := by
    simp only [List.length_append, List.length_drop, BLOCK_SIZE] at *
    omega
  have hstream : ((b ++ p) ++ q).drop ((b ++ p).length / BLOCK_SIZE * BLOCK_SIZE)
      = (b ++ p).drop ((b ++ p).length / BLOCK_SIZE * BLOCK_SIZE) ++ q :=
    List.drop_append_of_le_length hk1
  have hfirst : blockChunks sl nl ((b ++ p).length / BLOCK_SIZE) h t ((b ++ p) ++ q)
      = blockChunks sl nl ((b ++ p).length / BLOCK_SIZE) h t (b ++ p) := by
    rw [← blockChunks_take sl nl ((b ++ p).length / BLOCK_SIZE) h t ((b ++ p) ++ q),
      List.take_append_of_le_length hk1, blockChunks_take]
  have hchunks : blockChunks sl nl (((b ++ p) ++ q).length / BLOCK_SIZE) h t ((b ++ p) ++ q)
      = blockChunks sl nl
          (((b ++ p).drop ((b ++ p).length / BLOCK_SIZE * BLOCK_SIZE) ++ q).length / BLOCK_SIZE)
          (blockChunks sl nl ((b ++ p).length / BLOCK_SIZE) h t (b ++ p)).1
          (blockChunks sl nl ((b ++ p).length / BLOCK_SIZE) h t (b ++ p)).2
          ((b ++ p).drop ((b ++ p).length / BLOCK_SIZE * BLOCK_SIZE) ++ q) := by
    rw [hK, blockChunks_add, hfirst, hstream]
  have hbuf : ((b ++ p) ++ q).drop ((((b ++ p) ++ q).length / BLOCK_SIZE) * BLOCK_SIZE)
      = ((b ++ p).drop ((b ++ p).length / BLOCK_SIZE * BLOCK_SIZE) ++ q).drop
          ((((b ++ p).drop ((b ++ p).length / BLOCK_SIZE * BLOCK_SIZE) ++ q).length / BLOCK_SIZE)
            * BLOCK_SIZE) := by
    rw [hK, Nat.add_mul, ← List.drop_drop, hstream]
  rw [hchunks, hbuf]

theorem obsw_small (o : Obs) (p : List Nat) (hlen : (o.buf ++ p).length < BLOCK_SIZE) :
    o.write p = { o with buf := o.buf ++ p } := by
  simp only [Obs.write]
  rw [Nat.div_eq_of_lt hlen]
  simp [blockChunks]

theorem obsw_fill (o : Obs) (p : List Nat) (hlen : (o.buf ++ p).length = BLOCK_SIZE) :
    o.write p = { o with h := compress1 o.h o.s ((o.t + 1024) % M64) o.nullt (o.buf ++ p),
                         t := (o.t + 1024) % M64, buf := [] } := by
  simp only [Obs.write]
  have hk : (o.buf ++ p).length / BLOCK_SIZE = 1 := by
    rw [hlen]; simp [BLOCK_SIZE]
  rw [hk]
  simp only [blockChunks, Nat.one_mul]
  rw [List.take_of_length_le (le_of_eq hlen), List.drop_eq_nil_of_le (le_of_eq hlen)]

theorem write_small (d : Blake512) (p : List Nat) (hwf : WF d)
    (hl : d.nx + p.length < BLOCK_SIZE) :
    (d.write p).1.t = d.t ∧ (d.write p).1.nx = d.nx + p.length ∧ (d.write p).1.h = d.h ∧
    (d.write p).1.nullt = d.nullt ∧ (d.write p).1.s = d.s ∧
    (d.write p).1.hash_size = d.hash_size ∧
    (d.write p).1.x.take (d.write p).1.nx = d.x.take d.nx ++ p ∧ WF (d.write p).1 := by
  obtain ⟨hobs, hwf'⟩ := write_obs d p hwf
  have hbl : d.toObs.buf.length = d.nx := toObs_buf_length d hwf
  have hq : (d.toObs.buf ++ p).length < BLOCK_SIZE := by
    rw [List.length_append, hbl]; exact hl
  rw [obsw_small _ _ hq] at hobs
  have hbuf : (d.write p).1.x.take (d.write p).1.nx = d.x.take d.nx ++ p := by
    have := congrArg Obs.buf hobs
    simpa [Blake512.toObs] using this
  have hnx : (d.write p).1.nx = d.nx + p.length := by
    have hlen2 := congrArg List.length hbuf
    simp only [List.length_append, List.length_take] at hlen2
    obtain ⟨w1, w2⟩ := hwf'
    obtain ⟨v1, v2⟩ := hwf
    omega
  refine ⟨?_, hnx, ?_, ?_, ?_, ?_, hbuf, hwf'⟩
  · exact congrArg Obs.t hobs
  · exact congrArg Obs.h hobs
  · exact congrArg Obs.nullt hobs
  · exact congrArg Obs.s hobs
  · exact congrArg Obs.hash_size hobs

theorem write_fill (d : Blake512) (p : List Nat) (hwf : WF d)
    (hl : d.nx + p.length = BLOCK_SIZE) :
    (d.write p).1.t = (d.t + 1024) % M64 ∧ (d.write p).1.nx = 0 ∧
    (d.write p).1.h
      = compress1 d.h d.s ((d.t + 1024) % M64) d.nullt (d.x.take d.nx ++ p) ∧
    (d.write p).1.nullt = d.nullt ∧ (d.write p).1.s = d.s ∧
    (d.write p).1.hash_size = d.hash_size ∧ WF (d.write p).1 := by
  obtain ⟨hobs, hwf'⟩ := write_obs d p hwf
  have hbl : d.toObs.buf.length = d.nx := toObs_buf_length d hwf
  have hq : (d.toObs.buf ++ p).length = BLOCK_SIZE := by
    rw [List.length_append, hbl]; exact hl
  rw [obsw_fill _ _ hq] at hobs
  have hnx : (d.write p).1.nx = 0 := by
    have hb := congrArg Obs.buf hobs
    have hlen2 := congrArg List.length hb
    simp only [Blake512.toObs, List.length_take, List.length_nil] at hlen2
    obtain ⟨w1, w2⟩ := hwf'
    omega
  refine ⟨?_, hnx, ?_, ?_, ?_, ?_, hwf'⟩
  · exact congrArg Obs.t hobs
  · exact congrArg Obs.h hobs
  · exact congrArg Obs.nullt hobs
  · exact congrArg Obs.s hobs
  · exact congrArg Obs.hash_size hobs

theorem nx_eq_of_obs (d1 d2 : Blake512) (h1 : WF d1) (h2 : WF d2)
    (he : d1.toObs = d2.toObs) : d1.nx = d2.nx := by
  rw [← toObs_buf_length d1 h1, ← toObs_buf_length d2 h2, he]

theorem write_congr (d1 d2 : Blake512) (p : List Nat) (h1 : WF d1) (h2 : WF d2)
    (he : d1.toObs = d2.toObs) :
    (d1.write p).1.toObs = (d2.write p).1.toObs ∧ WF (d1.write p).1 ∧ WF (d2.write p).1 := by
  obtain ⟨e1, w1⟩ := write_obs d1 p h1
  obtain ⟨e2, w2⟩ := write_obs d2 p h2
  exact ⟨by rw [e1, e2, he], w1, w2⟩

theorem writeSub_congr (d1 d2 : Blake512) (c1 c2 : Nat) (p1 p2 : List Nat)
    (h1 : WF d1) (h2 : WF d2) (he : d1.toObs = d2.toObs) (hc : c1 = c2) (hp : p1 = p2) :
    (({ d1 with t := sub64 d1.t c1 }).write p1).1.toObs
      = (({ d2 with t := sub64 d2.t c2 }).write p2).1.toObs
    ∧ WF (({ d1 with t := sub64 d1.t c1 }).write p1).1
    ∧ WF (({ d2 with t := sub64 d2.t c2 }).write p2).1 := by
  subst hc; subst hp
  exact write_congr { d1 with t := sub64 d1.t c1 } { d2 with t := sub64 d2.t c1 } p1 h1 h2
    (congrArg (fun o : Obs => { o with t := sub64 o.t c1 }) he)

theorem writeN_congr (d1 d2 : Blake512) (b : Bool) (p : List Nat)
    (h1 : WF d1) (h2 : WF d2) (he : d1.toObs = d2.toObs) :
    (({ d1 with nullt := b }).write p).1.toObs = (({ d2 with nullt := b }).write p).1.toObs
    ∧ WF (({ d1 with nullt := b }).write p).1 ∧ WF (({ d2 with nullt := b }).write p).1 :=
  write_congr { d1 with nullt := b } { d2 with nullt := b } p h1 h2
    (congrArg (fun o : Obs => { o with nullt := b }) he)

theorem padStep_congr (d1 d2 : Blake512) (h1 : WF d1) (h2 : WF d2)
    (he : d1.toObs = d2.toObs) :
    d1.padStep.toObs = d2.padStep.toObs ∧ WF d1.padStep ∧ WF d2.padStep := by
  have hnx : d1.nx = d2.nx := nx_eq_of_obs d1 d2 h1 h2 he
  simp only [Blake512.padStep]
  by_cases h111 : d2.nx = 111
  · have h111' : d1.nx = 111 := by rw [hnx]; exact h111
    rw [if_pos h111', if_pos h111]
    exact writeSub_congr d1 d2 8 8 [0x81] [0x81] h1 h2 he rfl rfl
  · have h111' : ¬ d1.nx = 111 := by rw [hnx]; exact h111
    rw [if_neg h111', if_neg h111]
    by_cases h110 : d2.nx < 111
    · have h110' : d1.nx < 111 := by rw [hnx]; exact h110
      rw [if_pos h110', if_pos h110]
      by_cases h0 : d2.nx = 0
      · have h0' : d1.nx = 0 := by rw [hnx]; exact h0
        rw [if_pos h0', if_pos h0]
        obtain ⟨ew, ww1, ww2⟩ := writeSub_congr { d1 with nullt := true } { d2 with nullt := true }
          (888 - (d1.nx <<< 3)) (888 - (d2.nx <<< 3))
          (padList.take (111 - d1.nx)) (padList.take (111 - d2.nx)) h1 h2
          (congrArg (fun o : Obs => { o with nullt := true }) he)
          (by rw [hnx]) (by rw [hnx])
        obtain ⟨ew2, wz1, wz2⟩ := write_congr _ _ [0x01] ww1 ww2 ew
        exact ⟨congrArg (fun o : Obs => { o with t := sub64 o.t 8 }) ew2, wz1, wz2⟩
      · have h0' : ¬ d1.nx = 0 := by rw [hnx]; exact h0
        rw [if_neg h0', if_neg h0]
        obtain ⟨ew, ww1, ww2⟩ := writeSub_congr d1 d2
          (888 - (d1.nx <<< 3)) (888 - (d2.nx <<< 3))
          (padList.take (111 - d1.nx)) (padList.take (111 - d2.nx)) h1 h2 he
          (by rw [hnx]) (by rw [hnx])
        obtain ⟨ew2, wz1, wz2⟩ := write_congr _ _ [0x01] ww1 ww2 ew
        exact ⟨congrArg (fun o : Obs => { o with t := sub64 o.t 8 }) ew2, wz1, wz2⟩
    · have h110' : ¬ d1.nx < 111 := by rw [hnx]; exact h110
      rw [if_neg h110', if_neg h110]
      obtain ⟨ew, ww1, ww2⟩ := writeSub_congr d1 d2
        (1024 - (d1.nx <<< 3)) (1024 - (d2.nx <<< 3))
        (padList.take (BLOCK_SIZE - d1.nx)) (padList.take (BLOCK_SIZE - d2.nx)) h1 h2 he
        (by rw [hnx]) (by rw [hnx])
      set W1 : Blake512 := (({ d1 with t := sub64 d1.t (1024 - (d1.nx <<< 3)) } : Blake512).write
        (padList.take (BLOCK_SIZE - d1.nx))).1 with hW1
      set V1 : Blake512 := (({ d2 with t := sub64 d2.t (1024 - (d2.nx <<< 3)) } : Blake512).write
        (padList.take (BLOCK_SIZE - d2.nx))).1 with hV1
      obtain ⟨ew2, wz1, wz2⟩ := writeSub_congr W1 V1 888 888
        ((padList.drop 1).take 111) ((padList.drop 1).take 111) ww1 ww2 ew rfl rfl
      set W2 : Blake512 := (({ W1 with t := sub64 W1.t 888 } : Blake512).write
        ((padList.drop 1).take 111)).1 with hW2
      set V2 : Blake512 := (({ V1 with t := sub64 V1.t 888 } : Blake512).write
        ((padList.drop 1).take 111)).1 with hV2
      obtain ⟨ew3, wy1, wy2⟩ := writeN_congr W2 V2 true [0x01] wz1 wz2 ew2
      clear_value W1 V1 W2 V2
      exact ⟨congrArg (fun o : Obs => { o with t := sub64 o.t 8 }) ew3, wy1, wy2⟩

theorem finalize_congr (d1 d2 : Blake512) (h1 : WF d1) (h2 : WF d2)
    (he : d1.toObs = d2.toObs) :
    d1.finalize.toObs = d2.finalize.toObs ∧ WF d1.finalize ∧ WF d2.finalize := by
  have hnx : d1.nx = d2.nx := nx_eq_of_obs d1 d2 h1 h2 he
  have ht : d1.t = d2.t := congrArg Obs.t he
  simp only [Blake512.finalize]
  obtain ⟨ep, wp1, wp2⟩ := padStep_congr d1 d2 h1 h2 he
  exact writeSub_congr d1.padStep d2.padStep 128 128
    (lenBytes ((d1.t + (d1.nx <<< 3)) % M64)) (lenBytes ((d2.t + (d2.nx <<< 3)) % M64))
    wp1 wp2 ep rfl (by rw [ht, hnx])

theorem sub64_of_le (a b : Nat) (hb : b ≤ a) (ha : a < M64) : sub64 a b = a - b := by
  have hM : (0:Nat) < M64 := by simp [M64]
  have h1 : a + (M64 - b) = (a - b) + M64 := by omega
  rw [sub64, h1, Nat.add_mod_right]
  exact Nat.mod_eq_of_lt (by omega)


theorem reachable_inv (d : Blake512) (B : Nat) (hR : Reachable d B) :
    WF d ∧ d.t = (1024 * B) % M64 ∧ d.nullt = false := by
  induction hR with
  | init =>
    refine ⟨⟨by simp [blakeDefault, BLOCK_SIZE], by simp [blakeDefault]⟩, by simp [blakeDefault], rfl⟩
  | construct hs hhs =>
    refine ⟨⟨by simp [mkBlake, BLOCK_SIZE], by simp [mkBlake]⟩, by simp [mkBlake], rfl⟩
  | reset d B hd ih =>
    obtain ⟨⟨i1, i2⟩, it, inl⟩ := ih
    exact ⟨⟨by simp [Blake512.reset, BLOCK_SIZE], by simpa [Blake512.reset] using i2⟩,
      by simp [Blake512.reset], rfl⟩
  | write d B p hd ih =>
    obtain ⟨hwf, ht, hnl⟩ := ih
    obtain ⟨hobs, hwf'⟩ := write_obs d p hwf
    refine ⟨hwf', ?_, ?_⟩
    · have hbl : d.toObs.buf.length = d.nx := toObs_buf_length d hwf
      have htlt : d.t < M64 := by rw [ht]; exact Nat.mod_lt _ (by simp [M64])
      have hT : (d.write p).1.t
          = (blockChunks d.s d.nullt ((d.toObs.buf ++ p).length / BLOCK_SIZE) d.h d.t
              (d.toObs.buf ++ p)).2 := congrArg Obs.t hobs
      rw [hT, blockChunks_t d.s d.nullt _ d.h d.t _ htlt, List.length_append, hbl, ht,
        Nat.mod_add_mod]
      congr 1
      ring
    · have hN : (d.write p).1.nullt = d.nullt := congrArg Obs.nullt hobs
      rw [hN, hnl]
  | salt d B s d' hd hsalt ih =>
    obtain ⟨hwf, ht, hnl⟩ := ih
    simp only [Blake512.set_salt] at hsalt
    by_cases hlen : s.length ≠ 32
    · rw [if_pos hlen] at hsalt
      exact absurd hsalt (by simp)
    · rw [if_neg hlen] at hsalt
      obtain rfl := (Option.some.inj hsalt).symm
      exact ⟨⟨hwf.1, hwf.2⟩, ht, hnl⟩

theorem compress1_length (h sl : List Nat) (t : Nat) (nl : Bool) (blk : List Nat) :
    (compress1 h sl t nl blk).length = 8 := rfl

theorem padList_take_length (n : Nat) (hn : n ≤ 129) : (padList.take n).length = n := by
  have : padList.length = 129 := by simp [padList]
  rw [List.length_take, this]
  omega

theorem wf_set_t (d : Blake512) (v : Nat) (h : WF d) : WF ({ d with t := v } : Blake512) := h

theorem wf_set_nullt (d : Blake512) (b : Bool) (h : WF d) :
    WF ({ d with nullt := b } : Blake512) := h

theorem nx_set_t (d : Blake512) (v : Nat) : ({ d with t := v } : Blake512).nx = d.nx := rfl

theorem t_set_t (d : Blake512) (v : Nat) : ({ d with t := v } : Blake512).t = v := rfl

theorem nx_set_nullt (d : Blake512) (b : Bool) :
    ({ d with nullt := b } : Blake512).nx = d.nx := rfl

theorem hs_set_t (d : Blake512) (v : Nat) :
    ({ d with t := v } : Blake512).hash_size = d.hash_size := rfl

theorem hs_set_nullt (d : Blake512) (b : Bool) :
    ({ d with nullt := b } : Blake512).hash_size = d.hash_size := rfl

theorem padStep_nx (d : Blake512) (hwf : WF d) :
    d.padStep.nx = 112 ∧ WF d.padStep ∧ d.padStep.hash_size = d.hash_size := by
  obtain ⟨hnx, hx⟩ := hwf
  have hBS : BLOCK_SIZE = 128 := rfl
  simp only [Blake512.padStep]
  by_cases h111 : d.nx = 111
  · rw [if_pos h111]
    obtain ⟨_, hnx1, _, _, _, hhs1, _, hwf1⟩ :=
      write_small { d with t := sub64 d.t 8 } [0x81] ⟨hnx, hx⟩
        (by rw [nx_set_t, h111]; simp [BLOCK_SIZE])
    refine ⟨?_, hwf1, ?_⟩
    · rw [hnx1, nx_set_t, h111]
      simp
    · rw [hhs1, hs_set_t]
  · rw [if_neg h111]
    by_cases h110 : d.nx < 111
    · rw [if_pos h110]
      set D0 : Blake512 := (if d.nx = 0 then { d with nullt := true } else d) with hD0
      have hd0 : D0.nx = d.nx := by rw [hD0]; split <;> rfl
      have hwf0 : WF D0 := by rw [hD0]; split <;> exact ⟨hnx, hx⟩
      have hp1 : (padList.take (111 - d.nx)).length = 111 - d.nx :=
        padList_take_length _ (by omega)
      have hd0hs : D0.hash_size = d.hash_size := by rw [hD0]; split <;> rfl
      obtain ⟨_, hnx1, _, _, _, hhs1, _, hwf1⟩ :=
        write_small { D0 with t := sub64 D0.t (888 - (d.nx <<< 3)) }
          (padList.take (111 - d.nx)) (wf_set_t _ _ hwf0)
          (by rw [nx_set_t, hd0, hp1, hBS]; omega)
      set W1 : Blake512 := (({ D0 with t := sub64 D0.t (888 - (d.nx <<< 3)) } : Blake512).write
        (padList.take (111 - d.nx))).1 with hW1
      obtain ⟨_, hnx2, _, _, _, hhs2, _, hwf2⟩ := write_small W1 [0x01] hwf1
        (by rw [hnx1, nx_set_t, hd0, hp1, hBS]; simp only [List.length_singleton]; omega)
      refine ⟨?_, wf_set_t _ _ hwf2, ?_⟩
      · rw [nx_set_t, hnx2, hnx1, nx_set_t, hd0, hp1]
        simp only [List.length_singleton]
        omega
      · rw [hs_set_t, hhs2, hhs1, hs_set_t, hd0hs]
    · rw [if_neg h110]
      have hp1 : (padList.take (BLOCK_SIZE - d.nx)).length = BLOCK_SIZE - d.nx :=
        padList_take_length _ (by rw [hBS] at *; omega)
      obtain ⟨_, hnx1, _, _, _, hhs1, hwf1⟩ :=
        write_fill { d with t := sub64 d.t (1024 - (d.nx <<< 3)) }
          (padList.take (BLOCK_SIZE - d.nx)) ⟨hnx, hx⟩
          (by rw [nx_set_t, hp1]; rw [hBS] at hnx ⊢; omega)
      set W1 : Blake512 := (({ d with t := sub64 d.t (1024 - (d.nx <<< 3)) } : Blake512).write
        (padList.take (BLOCK_SIZE - d.nx))).1 with hW1
      have hp2 : ((padList.drop 1).take 111).length = 111 := by
        simp [padList]
      obtain ⟨_, hnx2, _, _, _, hhs2, _, hwf2⟩ :=
        write_small { W1 with t := sub64 W1.t 888 } ((padList.drop 1).take 111)
          (wf_set_t _ _ hwf1) (by rw [nx_set_t, hnx1, hp2, hBS]; omega)
      set W2 : Blake512 := (({ W1 with t := sub64 W1.t 888 } : Blake512).write
        ((padList.drop 1).take 111)).1 with hW2
      obtain ⟨_, hnx3, _, _, _, hhs3, _, hwf3⟩ :=
        write_small { W2 with nullt := true } [0x01] (wf_set_nullt _ _ hwf2)
          (by rw [nx_set_nullt, hnx2, nx_set_t, hnx1, hp2, hBS]
              simp only [List.length_singleton]
              omega)
      refine ⟨?_, wf_set_t _ _ hwf3, ?_⟩
      · rw [nx_set_t, hnx3, nx_set_nullt, hnx2, nx_set_t, hnx1, hp2]
        simp only [List.length_singleton]
      · rw [hs_set_t, hhs3, hs_set_nullt, hhs2, hs_set_t, hhs1, hs_set_t]

theorem lenBytes_length (l : Nat) : (lenBytes l).length = 16 := by
  simp [lenBytes, be64bytes]

theorem finalize_spec (d : Blake512) (hwf : WF d) :
    d.finalize.h.length = 8 ∧ WF d.finalize ∧ d.finalize.hash_size = d.hash_size := by
  obtain ⟨hn, hwfp, hhsp⟩ := padStep_nx d hwf
  simp only [Blake512.finalize]
  obtain ⟨_, _, hh, _, _, hhs, hwfF⟩ :=
    write_fill { d.padStep with t := sub64 d.padStep.t 128 }
      (lenBytes ((d.t + (d.nx <<< 3)) % M64)) (wf_set_t _ _ hwfp)
      (by rw [nx_set_t, hn, lenBytes_length]; rfl)
  refine ⟨?_, hwfF, ?_⟩
  · rw [hh]
    exact compress1_length _ _ _ _ _
  · rw [hhs, hs_set_t, hhsp]



theorem t_set_nullt (d : Blake512) (b : Bool) :
    ({ d with nullt := b } : Blake512).t = d.t := rfl

theorem sumNoUnderflow_spec (d : Blake512) (B : Nat) (hR : Reachable d B) :
    sumNoUnderflow d = true ↔ d.t ≠ 0 := by
  obtain ⟨⟨hnx, hx⟩, ht, hnl⟩ := reachable_inv d B hR
  have hM64 : M64 = 18446744073709551616 := by norm_num [M64]
  have hBS : BLOCK_SIZE = 128 := rfl
  have hdvd : (1024 : Nat) ∣ d.t := by
    rw [ht]
    exact (Nat.dvd_mod_iff (by rw [hM64]; norm_num)).mpr ⟨B, rfl⟩
  have hlt : d.t < M64 := by rw [ht]; exact Nat.mod_lt _ (by rw [hM64]; norm_num)
  have hsh : d.nx <<< 3 = d.nx * 8 := by rw [Nat.shiftLeft_eq]
  have hnx' : d.nx < 128 := by rw [hBS] at hnx; exact hnx
  simp only [sumNoUnderflow]
  by_cases h111 : d.nx = 111
  · rw [if_pos h111]
    obtain ⟨ht1, _⟩ :=
      write_small { d with t := sub64 d.t 8 } [0x81] ⟨hnx, hx⟩
        (by rw [nx_set_t, h111]; simp [BLOCK_SIZE])
    rw [ht1, t_set_t]
    by_cases hz : d.t = 0
    · have hc1 : decide (8 ≤ d.t) = false := by
        simp only [decide_eq_false_iff_not]
        omega
      rw [hc1]
      simp [hz]
    · have h1024 : 1024 ≤ d.t := Nat.le_of_dvd (Nat.pos_of_ne_zero hz) hdvd
      rw [sub64_of_le _ _ (by omega) hlt]
      simp only [Bool.and_eq_true, decide_eq_true_eq]
      omega
  · rw [if_neg h111]
    by_cases h110 : d.nx < 111
    · rw [if_pos h110]
      set D0 : Blake512 := (if d.nx = 0 then { d with nullt := true } else d) with hD0
      have hd0 : D0.nx = d.nx := by rw [hD0]; split <;> rfl
      have hd0t : D0.t = d.t := by rw [hD0]; split <;> rfl
      have hwf0 : WF D0 := by rw [hD0]; split <;> exact ⟨hnx, hx⟩
      have hp1 : (padList.take (111 - d.nx)).length = 111 - d.nx :=
        padList_take_length _ (by omega)
      obtain ⟨ht1, hnx1, _, _, _, _, _, hwf1⟩ :=
        write_small { D0 with t := sub64 D0.t (888 - (d.nx <<< 3)) }
          (padList.take (111 - d.nx)) (wf_set_t _ _ hwf0)
          (by rw [nx_set_t, hd0, hp1, hBS]; omega)
      set W1 : Blake512 := (({ D0 with t := sub64 D0.t (888 - (d.nx <<< 3)) } : Blake512).write
        (padList.take (111 - d.nx))).1 with hW1
      obtain ⟨ht2, _⟩ := write_small W1 [0x01] hwf1
        (by rw [hnx1, nx_set_t, hd0, hp1, hBS]; simp only [List.length_singleton]; omega)
      rw [ht2, ht1, t_set_t, hd0t, hsh]
      by_cases hz : d.t = 0
      · have hc1 : decide (888 - d.nx * 8 ≤ d.t) = false := by
          simp only [decide_eq_false_iff_not]
          omega
        rw [hc1]
        simp [hz]
      · have h1024 : 1024 ≤ d.t := Nat.le_of_dvd (Nat.pos_of_ne_zero hz) hdvd
        have e1 : sub64 d.t (888 - d.nx * 8) = d.t - (888 - d.nx * 8) :=
          sub64_of_le _ _ (by omega) hlt
        rw [e1]
        have e2 : sub64 (d.t - (888 - d.nx * 8)) 8 = d.t - (888 - d.nx * 8) - 8 :=
          sub64_of_le _ _ (by omega) (by rw [hM64] at hlt ⊢; omega)
        rw [e2]
        simp only [Bool.and_eq_true, decide_eq_true_eq]
        omega
    · rw [if_neg h110]
      have hp1 : (padList.take (BLOCK_SIZE - d.nx)).length = BLOCK_SIZE - d.nx :=
        padList_take_length _ (by rw [hBS]; omega)
      obtain ⟨ht1, hnx1, _, _, _, _, hwf1⟩ :=
        write_fill { d with t := sub64 d.t (1024 - (d.nx <<< 3)) }
          (padList.take (BLOCK_SIZE - d.nx)) ⟨hnx, hx⟩
          (by rw [nx_set_t, hp1, hBS]; omega)
      set W1 : Blake512 := (({ d with t := sub64 d.t (1024 - (d.nx <<< 3)) } : Blake512).write
        (padList.take (BLOCK_SIZE - d.nx))).1 with hW1
      have hp2 : ((padList.drop 1).take 111).length = 111 := by
        simp [padList]
      obtain ⟨ht2, hnx2, _, _, _, _, _, hwf2⟩ :=
        write_small { W1 with t := sub64 W1.t 888 } ((padList.drop 1).take 111)
          (wf_set_t _ _ hwf1) (by rw [nx_set_t, hnx1, hp2, hBS]; omega)
      set W2 : Blake512 := (({ W1 with t := sub64 W1.t 888 } : Blake512).write
        ((padList.drop 1).take 111)).1 with hW2
      obtain ⟨ht3, _⟩ :=
        write_small { W2 with nullt := true } [0x01] (wf_set_nullt _ _ hwf2)
          (by rw [nx_set_nullt, hnx2, nx_set_t, hnx1, hp2, hBS]
              simp only [List.length_singleton]
              omega)
      rw [ht3, t_set_nullt, ht2, t_set_t, ht1, t_set_t, hsh]
      by_cases hz : d.t = 0
      · have hc1 : decide (1024 - d.nx * 8 ≤ d.t) = false := by
          simp only [decide_eq_false_iff_not]
          omega
        rw [hc1]
        simp [hz]
      · have h1024 : 1024 ≤ d.t := Nat.le_of_dvd (Nat.pos_of_ne_zero hz) hdvd
        have htle : d.t ≤ M64 - 1024 := by
          obtain ⟨k, hk⟩ := hdvd
          rw [hM64] at hlt ⊢
          omega
        have e1 : sub64 d.t (1024 - d.nx * 8) = d.t - (1024 - d.nx * 8) :=
          sub64_of_le _ _ (by omega) hlt
        rw [e1]
        have e2 : (d.t - (1024 - d.nx * 8) + 1024) % M64
            = d.t - (1024 - d.nx * 8) + 1024 :=
          Nat.mod_eq_of_lt (by rw [hM64] at htle ⊢; omega)
        rw [e2]
        have e3 : sub64 (d.t - (1024 - d.nx * 8) + 1024) 888
            = d.t - (1024 - d.nx * 8) + 1024 - 888 :=
          sub64_of_le _ _ (by omega) (by rw [hM64] at htle ⊢; omega)
        rw [e3]
        have e4 : sub64 (d.t - (1024 - d.nx * 8) + 1024 - 888) 8
            = d.t - (1024 - d.nx * 8) + 1024 - 888 - 8 :=
          sub64_of_le _ _ (by omega) (by rw [hM64] at htle ⊢; omega)
        rw [e4]
        simp only [Bool.and_eq_true, decide_eq_true_eq]
        omega

theorem bytesOfWords_length (ws : List Nat) : (bytesOfWords ws).length = 8 * ws.length := by
  induction ws with
  | nil => rfl
  | cons w ws ih =>
    simp only [bytesOfWords, List.length_append, be64bytes, List.length_cons, ih]
    simp [List.length_cons]
    omega

theorem write_step1_nil (d : Blake512) (hwf : WF d) : writeStep1 d [] = (d, []) := by
  by_cases h0 : 0 < d.nx
  · have hmin : min ([] : List Nat).length (BLOCK_SIZE - d.nx) = 0 := by simp
    have hcopy : copyInto d.x d.nx [] 0 = d.x := by
      simp [copyInto]
    have hne : ¬ (d.nx + 0 = BLOCK_SIZE) := by
      have h1 := hwf.1
      omega
    simp only [writeStep1, if_pos h0, hmin, hcopy, List.drop_nil]
    rw [if_neg hne]
    rfl
  · simp only [writeStep1, if_neg h0]

theorem sum_snd (d : Blake512) (inp : List Nat) :
    (d.sum inp).2 = inp ++ digestBytes d.finalize := rfl

theorem digestBytes_eq (d : Blake512) :
    digestBytes d = bytesOfWords (d.h.take (d.hash_size >>> 6)) := rfl

theorem toObs_h (d : Blake512) : d.toObs.h = d.h := rfl

theorem toObs_hash_size (d : Blake512) : d.toObs.hash_size = d.hash_size := rfl

/-- C1: writing `b.take k` and then `b.drop k` leaves a well-formed hasher in
the same observable state (chain, counter, valid buffer content and length,
flags) as writing `b` in one call, and the byte output subsequently produced
by `sum` with any prefix is identical. -/
theorem write_split_invariance (d : Blake512) (b : List Nat) (k : Nat) (inp : List Nat)
    (hwf : WF d) (hk : k ≤ b.length) :
    ((d.write (b.take k)).1.write (b.drop k)).1.toObs = (d.write b).1.toObs
    ∧ (((d.write (b.take k)).1.write (b.drop k)).1.sum inp).2 = ((d.write b).1.sum inp).2 := by
  obtain ⟨e1, w1⟩ := write_obs d (b.take k) hwf
  obtain ⟨e2, w2⟩ := write_obs (d.write (b.take k)).1 (b.drop k) w1
  obtain ⟨e3, w3⟩ := write_obs d b hwf
  have he : ((d.write (b.take k)).1.write (b.drop k)).1.toObs = (d.write b).1.toObs := by
    rw [e2, e1, e3, obs_write_append, List.take_append_drop]
  refine ⟨he, ?_⟩
  obtain ⟨ef, _, _⟩ := finalize_congr _ _ w2 w3 he
  have hh : ((d.write (b.take k)).1.write (b.drop k)).1.finalize.h
      = (d.write b).1.finalize.h := by
    rw [← toObs_h (((d.write (b.take k)).1.write (b.drop k)).1.finalize),
      ← toObs_h ((d.write b).1.finalize), ef]
  have hhs : ((d.write (b.take k)).1.write (b.drop k)).1.finalize.hash_size
      = (d.write b).1.finalize.hash_size := by
    rw [← toObs_hash_size (((d.write (b.take k)).1.write (b.drop k)).1.finalize),
      ← toObs_hash_size ((d.write b).1.finalize), ef]
  rw [sum_snd, sum_snd, digestBytes_eq, digestBytes_eq, hh, hhs]

theorem write_split_invariance_witness :
    WF blakeDefault ∧ 1 ≤ ([5, 6, 7] : List Nat).length
    ∧ ((blakeDefault.write (([5, 6, 7] : List Nat).take 1)).1.write
          (([5, 6, 7] : List Nat).drop 1)).1.toObs
        = (blakeDefault.write [5, 6, 7]).1.toObs :=
  ⟨by decide, by decide,
    (write_split_invariance blakeDefault [5, 6, 7] 1 [] (by decide) (by decide)).1⟩

/-- C2: `sum` operates on an internal clone only, so the caller-visible hasher
state (every field) is returned unchanged; a later `write` or `sum` therefore
starts from exactly the state that existed before the call. -/
theorem sum_nondestructive (d : Blake512) (inp : List Nat) : (d.sum inp).1 = d := rfl

/-- C3: the claim that `write` always returns the input length fails — the
count is returned as `u8` (`nn as u8` in `lib.rs` line 102, modelled as
`% 256`), so a 256-byte write to the fresh hasher returns 0 while the input
length is 256. -/
theorem write_count_truncated :
    (blakeDefault.write (List.replicate 256 0)).2 = 0
    ∧ (List.replicate 256 (0 : Nat)).length = 256 := by
  exact ⟨rfl, by simp⟩

/-- C4: `set_salt` fails exactly when the input is not 32 bytes long (the
`panic!` is modelled as `none`: no state is produced, so the caller's hasher
is untouched on failure), and on a 32-byte input it succeeds, decoding the
four salt words big-endian while leaving every other field unchanged. -/
theorem set_salt_validation (d : Blake512) (s : List Nat) :
    (d.set_salt s = none ↔ s.length ≠ 32)
    ∧ ∀ d', d.set_salt s = some d' →
        d'.s = [be64 s, be64 (s.drop 8), be64 (s.drop 16), be64 (s.drop 24)]
        ∧ d'.hash_size = d.hash_size ∧ d'.h = d.h ∧ d'.t = d.t
        ∧ d'.nullt = d.nullt ∧ d'.x = d.x ∧ d'.nx = d.nx := by
  constructor
  · simp only [Blake512.set_salt]
    by_cases hl : s.length ≠ 32
    · rw [if_pos hl]
      simpa using hl
    · rw [if_neg hl]
      simpa using hl
  · intro d' hd'
    simp only [Blake512.set_salt] at hd'
    by_cases hl : s.length ≠ 32
    · rw [if_pos hl] at hd'
      exact absurd hd' (by simp)
    · rw [if_neg hl] at hd'
      obtain rfl := (Option.some.inj hd').symm
      exact ⟨rfl, rfl, rfl, rfl, rfl, rfl, rfl⟩

theorem set_salt_validation_witness :
    (blakeDefault.set_salt (List.replicate 31 0) = none
      ↔ (List.replicate 31 (0 : Nat)).length ≠ 32)
    ∧ ((blakeDefault.set_salt (List.replicate 32 0xff)).getD blakeDefault).s
        = [be64 (List.replicate 32 0xff), be64 ((List.replicate 32 (0xff : Nat)).drop 8),
           be64 ((List.replicate 32 (0xff : Nat)).drop 16),
           be64 ((List.replicate 32 (0xff : Nat)).drop 24)] :=
  ⟨(set_salt_validation blakeDefault (List.replicate 31 0)).1,
   ((set_salt_validation blakeDefault (List.replicate 32 0xff)).2
      ((blakeDefault.set_salt (List.replicate 32 0xff)).getD blakeDefault) (by decide)).1⟩

theorem sum_underflow_reachable :
    Reachable blakeDefault 0 ∧ sumNoUnderflow blakeDefault = false :=
  ⟨Reachable.init, by decide⟩

theorem sumNoUnderflow_spec_witness :
    Reachable (blakeDefault.write (List.replicate 128 1)).1
      (0 + (blakeDefault.nx + (List.replicate 128 (1 : Nat)).length) / BLOCK_SIZE)
    ∧ (sumNoUnderflow (blakeDefault.write (List.replicate 128 1)).1 = true
        ↔ (blakeDefault.write (List.replicate 128 1)).1.t ≠ 0) :=
  ⟨Reachable.write blakeDefault 0 (List.replicate 128 1) Reachable.init,
   sumNoUnderflow_spec (blakeDefault.write (List.replicate 128 1)).1
     (0 + (blakeDefault.nx + (List.replicate 128 (1 : Nat)).length) / BLOCK_SIZE)
     (Reachable.write blakeDefault 0 (List.replicate 128 1) Reachable.init)⟩

/-- C6: for every state reachable through construction, reset, set_salt and
any sequence of writes, the buffered byte count stays strictly below the
128-byte block size and the 64-bit counter equals 1024 times the number of
blocks compressed so far (reduced modulo 2^64, as the counter is a `u64`):
it counts bits compressed, never bits still sitting in the buffer. -/
theorem buffer_counter_invariant (d : Blake512) (B : Nat) (hR : Reachable d B) :
    d.nx < BLOCK_SIZE ∧ d.t = (1024 * B) % M64 :=
  ⟨(reachable_inv d B hR).1.1, (reachable_inv d B hR).2.1⟩

theorem buffer_counter_invariant_witness :
    blakeDefault.nx < BLOCK_SIZE ∧ blakeDefault.t = (1024 * 0) % M64 :=
  buffer_counter_invariant blakeDefault 0 Reachable.init

/-- C7: `reset` restores the chain to the IV selected by the current
`hash_size` (IV384 for 384, IV512 otherwise, in particular for 512), zeroes
the counter and the buffer length, clears the skip-counter flag, and leaves
`hash_size` and the salt words unchanged. -/
theorem reset_spec (d : Blake512) :
    d.reset.h = (if d.hash_size = 384 then IV384 else IV512)
    ∧ d.reset.t = 0 ∧ d.reset.nx = 0 ∧ d.reset.nullt = false
    ∧ d.reset.hash_size = d.hash_size ∧ d.reset.s = d.s :=
  ⟨rfl, rfl, rfl, rfl, rfl, rfl⟩

/-- C8: `sum prefix` returns exactly the prefix followed by the big-endian
serialization of the first `hash_size/64` words of the finalized chain, i.e.
`hash_size/8` digest bytes — 64 bytes in 512-bit mode, 48 in 384-bit mode. -/
theorem sum_output_structure (d : Blake512) (inp : List Nat) (hwf : WF d)
    (hhs : d.hash_size = 384 ∨ d.hash_size = 512) :
    (d.sum inp).2 = inp ++ bytesOfWords (d.finalize.h.take (d.hash_size / 64))
    ∧ (d.sum inp).2.length = inp.length + d.hash_size / 8 := by
  obtain ⟨hlen8, _, hhsF⟩ := finalize_spec d hwf
  have hser : (d.sum inp).2 = inp ++ bytesOfWords (d.finalize.h.take (d.hash_size / 64)) := by
    simp only [Blake512.sum, digestBytes, hhsF]
    rw [Nat.shiftRight_eq_div_pow]
  refine ⟨hser, ?_⟩
  rw [hser, List.length_append, bytesOfWords_length, List.length_take, hlen8]
  rcases hhs with h | h <;> rw [h] <;> norm_num

theorem sum_output_structure_witness :
    WF blakeDefault
    ∧ (blakeDefault.sum []).2.length = ([] : List Nat).length + blakeDefault.hash_size / 8 :=
  ⟨by decide,
   (sum_output_structure blakeDefault [] (by decide) (Or.inr rfl)).2⟩

/-- C9: known-answer test — a freshly constructed default (512-bit) hasher,
given no input, produces via `sum` with an empty prefix exactly the 64 digest
bytes whose hex encoding is a8cfbbd73726062df0c6864dda65defe58ef0cc52a562509
0fa17601e1eecd1b628e94f396ae402a00acc9eab77b4d4c2e852aaaa25a636d80af3fc7913e
f5b8. -/
theorem empty_input_kat :
    (blakeDefault.sum []).2
      = [0xa8, 0xcf, 0xbb, 0xd7, 0x37, 0x26, 0x06, 0x2d, 0xf0, 0xc6, 0x86, 0x4d, 0xda, 0x65,
         0xde, 0xfe, 0x58, 0xef, 0x0c, 0xc5, 0x2a, 0x56, 0x25, 0x09, 0x0f, 0xa1, 0x76, 0x01,
         0xe1, 0xee, 0xcd, 0x1b, 0x62, 0x8e, 0x94, 0xf3, 0x96, 0xae, 0x40, 0x2a, 0x00, 0xac,
         0xc9, 0xea, 0xb7, 0x7b, 0x4d, 0x4c, 0x2e, 0x85, 0x2a, 0xaa, 0xa2, 0x5a, 0x63, 0x6d,
         0x80, 0xaf, 0x3f, 0xc7, 0x91, 0x3e, 0xf5, 0xb8] := by
  decide

/-- C10: writing the empty byte sequence to a well-formed hasher returns
count 0 and is a complete no-op: every field of the state, the buffer array
included, is unchanged. -/
theorem write_empty_noop (d : Blake512) (hwf : WF d) :
    (d.write []).1 = d ∧ (d.write []).2 = 0 := by
  refine ⟨?_, rfl⟩
  show writeStep3 (writeStep2 (writeStep1 d []).1 (writeStep1 d []).2).1
      (writeStep2 (writeStep1 d []).1 (writeStep1 d []).2).2 = d
  rw [write_step1_nil d hwf]
  exact write_nil_aux d

theorem write_empty_noop_witness :
    WF blakeDefault ∧ (blakeDefault.write []).1 = blakeDefault
    ∧ (blakeDefault.write []).2 = 0 :=
  ⟨by decide, (write_empty_noop blakeDefault (by decide)).1,
   (write_empty_noop blakeDefault (by decide)).2⟩
